import Mathlib

/-
  Verification of the kottaslau stochastic assembly-line balancing heuristic,
  a shallow embedding of src/kottaslau/models/Task.py, Station.py, Instance.py.

  Modelling choices:
  * The source's float arithmetic is modelled over ℚ.  The external library
    functions it calls (math.sqrt, scipy.stats.norm.cdf, scipy.stats.norm.ppf)
    are not code of this repository; they enter the embedding as the three
    fields of a NormalLib parameter.  The concrete libQ below is only used to
    instantiate witnesses and counterexamples; the facts the proofs use about
    the real functions (sqrt is positive on positives, sqrt 0 = 0) are stated
    as explicit hypotheses or checked for libQ.
  * Python dicts are insertion-ordered association lists; iteration over a
    Python set is modelled by the deterministic key order of task_list.
  * Python exceptions (ZeroDivisionError raised by float division by zero,
    ValueError raised by math.sqrt of a negative) are modelled with
    Except String; a loop over tasks propagates the first error, like the
    Python for-loop raising at the first offending element (mapExcept).
  * The two while-loops of execute_algorithm run on explicit fuel;
    execute_algorithm bakes in fuel that the termination theorems prove
    sufficient for valid instances.  station_loop receives the previous
    stations and the current station separately: in the source the current
    station is the last entry of the station_list dict and is the only one
    ever mutated, so station_list is always prev ++ [current].
-/

namespace KL

/-- External numeric library surface used by Instance.py: math.sqrt,
scipy.stats.norm.cdf and scipy.stats.norm.ppf. -/
structure NormalLib where
  sqrt : ℚ → ℚ
  cdf : ℚ → ℚ
  ppf : ℚ → ℚ

/-- Task.py: raw fields (task_id, m, s, out_line_cost, predecessor_set) plus
the derived fields populated by fill_task_properties.  The source initialises
the derived fields to None; here they default to 0 and are only read after
fill_task_properties has set them. -/
structure Task where
  task_id : String
  m : ℚ
  s : ℚ
  out_line_cost : ℚ
  predecessor_set : List String
  out_completion_cost : ℚ := 0
  in_line_cost : ℚ := 0
  z_limit : ℚ := 0
  n_successors : Nat := 0
  deriving DecidableEq, Inhabited

/-- Station.py: a station id and the insertion-ordered dict
task id -> expected out-of-line cost recorded at assignment time. -/
structure Station where
  station_id : String
  out_line_cost : List (String × ℚ) := []
  deriving DecidableEq, Inhabited

/-- One element of the pot_tasks list built in the inner loop of
execute_algorithm: [task_id, status, z, out_compl_cost,
expected_cost_out_line, n_successors]. -/
structure PotEntry where
  task_id : String
  status : String
  z : ℚ
  out_compl_cost : ℚ
  expected_cost_out_line : ℚ
  n_successors : Nat
  deriving DecidableEq, Inhabited

/-- Instance.py: the whole problem instance. -/
structure Instance where
  instance_id : String
  task_list : List (String × Task)
  station_list : List (String × Station)
  T : ℚ
  c : ℚ
  total_unit_cost : ℚ
  deriving DecidableEq, Inhabited

abbrev TaskList := List (String × Task)
abbrev StationList := List (String × Station)

deriving instance DecidableEq for Except

def keysOf (tl : TaskList) : List String := tl.map Prod.fst

/-- Python's task_list[task_id] dict lookup.  In every call site of the source
the key is present (lookups use keys of the dict itself), so the default case
is never reached on the states the algorithm produces. -/
def findTask (tl : TaskList) (task_id : String) : Task :=
  match tl.find? (fun pr => decide (pr.1 = task_id)) with
  | some pr => pr.2
  | none => default

/-- Instance.successors_of: keys whose task lists task_id among its
predecessors (iteration in task_list order). -/
def successors_of (tl : TaskList) (task_id : String) : List String :=
  (tl.filter (fun pr => decide (task_id ∈ pr.2.predecessor_set))).map Prod.fst

/-- Worklist form of Instance.deep_first_search: the recursive Python DFS with
a shared visited set computes exactly the successor-closure of the start task;
the result is consumed only as a set (summed over with each task counted
once).  Fuel (n+1)^2+1 dominates the total number of stack pushes. -/
def dfsAux (tl : TaskList) : Nat → List String → List String → List String
  | 0, _, visited => visited
  | _ + 1, [], visited => visited
  | fuel + 1, t :: stack, visited =>
    if t ∈ visited then dfsAux tl fuel stack visited
    else dfsAux tl fuel (stack ++ successors_of tl t) (visited ++ [t])

def deep_first_search (tl : TaskList) (start_task_id : String) : List String :=
  dfsAux tl ((tl.length + 1) * (tl.length + 1) + 1) [start_task_id] []

/-- Instance.task_out_line_completion_cost: sum of out_line_cost over the
DFS-reachable tasks. -/
def task_out_line_completion_cost (tl : TaskList) (task_id : String) : ℚ :=
  ((deep_first_search tl task_id).map (fun tid => (findTask tl tid).out_line_cost)).sum

/-- Instance.task_in_line_completion_cost: m * c. -/
def task_in_line_completion_cost (tl : TaskList) (c : ℚ) (task_id : String) : ℚ :=
  (findTask tl task_id).m * c

/-- Message of Python's ZeroDivisionError on float division by zero. -/
def zeroDivMsg : String := "ZeroDivisionError: float division by zero"

/-- Message of Python's ValueError from math.sqrt of a negative number. -/
def domainErrMsg : String := "ValueError: math domain error"

/-- A Python for-loop mapping f over a list, raising at the first error. -/
def mapExcept {α β : Type} (f : α → Except String β) : List α → Except String (List β)
  | [] => .ok []
  | x :: xs =>
    match f x with
    | .error e => .error e
    | .ok y =>
      match mapExcept f xs with
      | .error e => .error e
      | .ok ys => .ok (y :: ys)

/-- One step of Instance.fill_task_properties for the pair pr of task_list:
sets out_completion_cost, in_line_cost, z_limit (compute_z_limit divides
in_line_cost by out_completion_cost, so out_completion_cost = 0 raises
ZeroDivisionError) and n_successors. -/
def fill_one (lib : NormalLib) (tl : TaskList) (c : ℚ) (pr : String × Task) :
    Except String (String × Task) :=
  let occ := task_out_line_completion_cost tl pr.1
  let ilc := pr.2.m * c
  if occ = 0 then .error zeroDivMsg
  else
    .ok (pr.1,
      { pr.2 with
        out_completion_cost := occ
        in_line_cost := ilc
        z_limit := lib.ppf (1 - ilc / occ)
        n_successors := (successors_of tl pr.1).length })

/-- Instance.fill_task_properties: populate the derived fields of every task,
in task_list order, propagating the first error.  The computations read only
the raw fields, so updating tasks during the Python loop cannot change later
results. -/
def fill_task_properties (lib : NormalLib) (tl : TaskList) (c : ℚ) :
    Except String TaskList :=
  mapExcept (fill_one lib tl c) tl

/-- Instance.__init__: T = 1/q (ZeroDivisionError when q = 0), then
fill_task_properties; station_list starts empty and total_unit_cost at 0. -/
def Instance.build (lib : NormalLib) (instance_id : String) (tl : TaskList)
    (q c : ℚ) : Except String Instance :=
  if q = 0 then .error zeroDivMsg
  else
    match fill_task_properties lib tl c with
    | .error e => .error e
    | .ok tl' => .ok ⟨instance_id, tl', [], 1 / q, c, 0⟩

/-- Task ids assigned to one station, in insertion order. -/
def stationTasks (st : Station) : List String := st.out_line_cost.map Prod.fst

/-- Instance.assigned_tasks: ids assigned across all stations (in station,
then insertion, order; the source builds an unordered set of the same ids). -/
def assigned_tasks : StationList → List String
  | [] => []
  | pr :: rest => stationTasks pr.2 ++ assigned_tasks rest

/-- Instance.potential_tasks: unassigned tasks all of whose predecessors are
assigned (an empty predecessor set is vacuously contained). -/
def potential_tasks (tl : TaskList) (stations : StationList) : List String :=
  (keysOf tl).filter (fun tid =>
    decide (tid ∉ assigned_tasks stations) &&
    (findTask tl tid).predecessor_set.all (fun p => decide (p ∈ assigned_tasks stations)))

/-- m_sum of Instance.compute_status: means of the station's tasks plus the
candidate's mean (the source's empty/nonempty branch on reduce both equal
this sum). -/
def station_m_sum (tl : TaskList) (station : Station) (task_id : String) : ℚ :=
  (station.out_line_cost.map (fun pr => (findTask tl pr.1).m)).sum + (findTask tl task_id).m

/-- s_sum of Instance.compute_status. -/
def station_s_sum (tl : TaskList) (station : Station) (task_id : String) : ℚ :=
  (station.out_line_cost.map (fun pr => (findTask tl pr.1).s)).sum + (findTask tl task_id).s

/-- Instance.compute_status: z = (T - m_sum)/sqrt(s_sum) (ValueError when
s_sum < 0, ZeroDivisionError when sqrt(s_sum) = 0), expected cost
(1 - cdf z) * out_completion_cost, and the safe/desirable/critical
classification against 2.575 = 103/40 and the task's z_limit. -/
def compute_status (lib : NormalLib) (tl : TaskList) (T : ℚ) (task_id : String)
    (station : Station) : Except String PotEntry :=
  let m_sum := station_m_sum tl station task_id
  let s_sum := station_s_sum tl station task_id
  if s_sum < 0 then .error domainErrMsg
  else if lib.sqrt s_sum = 0 then .error zeroDivMsg
  else
    let z := (T - m_sum) / lib.sqrt s_sum
    let occ := (findTask tl task_id).out_completion_cost
    let expected := (1 - lib.cdf z) * occ
    let status :=
      if 103 / 40 < z then "safe"
      else if (findTask tl task_id).z_limit < z then "desirable"
      else "critical"
    .ok ⟨task_id, status, z, occ, expected, (findTask tl task_id).n_successors⟩

/-- The pot_tasks list built at the top of the inner loop: one entry per
potential task, in iteration order, first error propagated. -/
def compute_pot_entries (lib : NormalLib) (tl : TaskList) (T : ℚ)
    (stations : StationList) (cur : Station) : Except String (List PotEntry) :=
  mapExcept (fun tid => compute_status lib tl T tid cur) (potential_tasks tl stations)

/-- sorted(l, key=f, reverse=True)[0] for a stable sort: the first element
attaining the maximal key. -/
def pickMaxBy {α : Type} [LinearOrder α] (f : PotEntry → α) :
    PotEntry → List PotEntry → PotEntry
  | best, [] => best
  | best, x :: xs => pickMaxBy f (if f best < f x then x else best) xs

/-- sorted(l, key=f)[0] for a stable sort: the first element attaining the
minimal key. -/
def pickMinBy {α : Type} [LinearOrder α] (f : PotEntry → α) :
    PotEntry → List PotEntry → PotEntry
  | best, [] => best
  | best, x :: xs => pickMinBy f (if f x < f best then x else best) xs

/-- sorted(l, key=f, reverse=True)[0] on a possibly empty list. -/
def pickMaxOpt {α : Type} [LinearOrder α] (f : PotEntry → α) :
    List PotEntry → Option PotEntry
  | [] => none
  | x :: xs => some (pickMaxBy f x xs)

/-- sorted(l, key=f)[0] on a possibly empty list. -/
def pickMinOpt {α : Type} [LinearOrder α] (f : PotEntry → α) :
    List PotEntry → Option PotEntry
  | [] => none
  | x :: xs => some (pickMinBy f x xs)

/-- The selection policy of the inner loop (Instance.execute_algorithm lines
255-267): critical bucket with an empty station picks the critical task with
most successors; otherwise a nonempty safe bucket picks the safe task with
highest out_compl_cost; otherwise a nonempty desirable bucket picks the
desirable task with lowest out_compl_cost; otherwise no selection (break to a
new station).  The pick on a taken branch never returns none, since each
branch requires its bucket nonempty. -/
def select_task (entries : List PotEntry) (stationEmpty : Bool) : Option PotEntry :=
  let critical_tasks := entries.filter (fun x => decide (x.status = "critical"))
  let safe_tasks := entries.filter (fun x => decide (x.status = "safe"))
  let desirable_tasks := entries.filter (fun x => decide (x.status = "desirable"))
  if critical_tasks.length > 0 ∧ stationEmpty = true then
    pickMaxOpt (fun x => x.n_successors) critical_tasks
  else if safe_tasks.length > 0 then
    pickMaxOpt (fun x => x.out_compl_cost) safe_tasks
  else if desirable_tasks.length > 0 then
    pickMinOpt (fun x => x.out_compl_cost) desirable_tasks
  else none

/-- The inner while-loop of execute_algorithm.  prev are the closed stations,
cur the currently open one (the last entry of the source's station_list).
Each iteration rebuilds pot_tasks, ends the algorithm if no task is
potential, otherwise selects a task and records it in cur, or breaks to open
a new station.  Returns the final current station and the number of
iterations of the loop body. -/
def station_loop (lib : NormalLib) (tl : TaskList) (T : ℚ) :
    Nat → StationList → Station → Except String (Station × Nat)
  | 0, _, _ => .error "fuel exhausted"
  | fuel + 1, prev, cur =>
    match compute_pot_entries lib tl T (prev ++ [(cur.station_id, cur)]) cur with
    | .error e => .error e
    | .ok entries =>
      if entries.isEmpty then .ok (cur, 1)
      else
        match select_task entries cur.out_line_cost.isEmpty with
        | none => .ok (cur, 1)
        | some sel =>
          match station_loop lib tl T fuel prev
              ⟨cur.station_id, cur.out_line_cost ++ [(sel.task_id, sel.expected_cost_out_line)]⟩ with
          | .error e => .error e
          | .ok (st, cnt) => .ok (st, cnt + 1)

/-- The outer while-loop of execute_algorithm: while a potential task exists,
open station str(n_station+1) and fill it with the inner loop.  Also sums the
inner-loop iteration counts. -/
def outer_loop (lib : NormalLib) (tl : TaskList) (T : ℚ) :
    Nat → StationList → Nat → Except String (StationList × Nat)
  | 0, _, _ => .error "fuel exhausted"
  | fuel + 1, stations, n_station =>
    if (potential_tasks tl stations).isEmpty then .ok (stations, 0)
    else
      let current : String := toString (n_station + 1)
      match station_loop lib tl T (tl.length + 2) stations ⟨current, []⟩ with
      | .error e => .error e
      | .ok (st, cnt) =>
        match outer_loop lib tl T fuel (stations ++ [(current, st)]) (n_station + 1) with
        | .error e => .error e
        | .ok (res, cnt2) => .ok (res, cnt + cnt2)

/-- Instance.execute_algorithm: run the loops, then accumulate
total_unit_cost with the two nested for-loops over the recorded costs and add
T * c * len(station_list).  Also returns the total inner-loop iteration
count. -/
def execute_algorithm (lib : NormalLib) (inst : Instance) :
    Except String (Instance × Nat) :=
  match outer_loop lib inst.task_list inst.T (inst.task_list.length + 1)
      inst.station_list 0 with
  | .error e => .error e
  | .ok (stations, cnt) =>
    let base := stations.foldl
      (fun acc pr => pr.2.out_line_cost.foldl (fun a v => a + v.2) acc)
      inst.total_unit_cost
    .ok ({ inst with
            station_list := stations
            total_unit_cost := base + inst.T * inst.c * (stations.length : ℚ) }, cnt)

/-- Index (0-based position) of the first station whose assignment map
contains tid; stations.length if none does.  The k-th created station has id
str(k+1), so this position is the station id parsed as an integer, minus 1. -/
def station_index (stations : StationList) (tid : String) : Nat :=
  match stations with
  | [] => 0
  | pr :: rest => if tid ∈ stationTasks pr.2 then 0 else station_index rest tid + 1

/-- Number of stations whose assignment map contains tid. -/
def countStations (stations : StationList) (tid : String) : Nat :=
  match stations with
  | [] => 0
  | pr :: rest => (if tid ∈ stationTasks pr.2 then 1 else 0) + countStations rest tid

/-- Concrete stand-in for math.sqrt used by witnesses and counterexamples:
any function that is 0 at 0 and positive on positives serves, since these are
the only properties of sqrt the algorithm's control flow consumes. -/
def sqrtQ (x : ℚ) : ℚ := if x ≤ 0 then 0 else x

/-- Concrete stand-in for the standard normal CDF: strictly monotone with
values strictly between 0 and 1, like norm.cdf. -/
def cdfQ (x : ℚ) : ℚ := 1 / 2 + x / (2 * (1 + |x|))

/-- Concrete stand-in for norm.ppf: the exact inverse of cdfQ on (0, 1)
(strictly monotone there, negative below 1/2, zero at 1/2, positive above
1/2), so cdfQ and ppfQ form one consistent distribution model with the same
sign structure as the standard normal CDF and quantile.  Outside (0, 1),
where norm.ppf is infinite or NaN, it returns 0; the concrete runs below
consult a z_limit produced from such an argument only where the comparison
cannot matter (the safe branch of compute_status short-circuits before
z_limit is read). -/
def ppfQ (p : ℚ) : ℚ :=
  let t := 2 * p - 1
  if 1 ≤ |t| then 0 else t / (1 - |t|)

def libQ : NormalLib := ⟨sqrtQ, cdfQ, ppfQ⟩

/-- e is the first element of l attaining the maximal f-value: everything
before it is strictly smaller, everything after it no larger.  This is
exactly the element a stable descending sort by f puts first, i.e. what
sorted(l, key=f, reverse=True)[0] returns. -/
def FirstMaxBy (f : PotEntry → ℚ) (l : List PotEntry) (e : PotEntry) : Prop :=
  ∃ l1 l2, l = l1 ++ e :: l2 ∧ (∀ x ∈ l1, f x < f e) ∧ (∀ x ∈ l2, f x ≤ f e)

/-- e is the first element of l attaining the minimal f-value: what
sorted(l, key=f)[0] returns for a stable sort. -/
def FirstMinBy (f : PotEntry → ℚ) (l : List PotEntry) (e : PotEntry) : Prop :=
  ∃ l1 l2, l = l1 ++ e :: l2 ∧ (∀ x ∈ l1, f e < f x) ∧ (∀ x ∈ l2, f e ≤ f x)

/-- Every-prefix closure: wherever t occurs in the assignment order, all of
its predecessors occur strictly before it. -/
def PrecClosed (tl : TaskList) (l : List String) : Prop :=
  ∀ xs t ys, l = xs ++ t :: ys → ∀ p ∈ (findTask tl t).predecessor_set, p ∈ xs

/-- Invariant of the assignment order maintained by the balancing loops:
no task is assigned twice, only tasks of the instance are assigned, and
predecessors are assigned before their successors. -/
structure GoodAssigned (tl : TaskList) (l : List String) : Prop where
  nodup : l.Nodup
  sub : ∀ x ∈ l, x ∈ keysOf tl
  prec : PrecClosed tl l

/-- Number of task ids not occurring in the list A of assigned ids. -/
def uaFrom (tl : TaskList) (A : List String) : Nat :=
  ((keysOf tl).filter (fun k => decide (k ∉ A))).length

/-- Number of tasks of the instance not yet assigned to any station. -/
def uaCount (tl : TaskList) (stations : StationList) : Nat :=
  uaFrom tl (assigned_tasks stations)

/-! Concrete instances used by witnesses and counterexamples.  All of them
are run with libQ. -/

/-- Two tasks with no predecessors and no successors; both classify safe for
the empty first station (z = 99 and z = 10), A has the larger
out_completion_cost (10 vs 9) but by far the smaller expected out-of-line
cost. -/
def tasksC1 : TaskList :=
  [("A", { task_id := "A", m := 1, s := 1, out_line_cost := 10, predecessor_set := [] }),
   ("B", { task_id := "B", m := 90, s := 1, out_line_cost := 9, predecessor_set := [] })]

def instC1 : Instance :=
  (Instance.build libQ "c1" tasksC1 (1 / 100) 0).toOption.getD default

def entriesC1 : List PotEntry :=
  (compute_pot_entries libQ instC1.task_list instC1.T
    [("1", ⟨"1", []⟩)] ⟨"1", []⟩).toOption.getD []

/-- Two tasks that both classify desirable for the empty first station with
T = 10 and c = 1: z = 1/2 for A against z_limit ppfQ(1/20) = -9 (norm.ppf of
1/20 is about -1.64, also below 1/2), and z = 5/2 for B against z_limit
ppfQ(5/8) = 1/3 (norm.ppf of 5/8 is about 0.32, also below 5/2), so the real
source classifies both desirable as well.  A has the smaller
out_completion_cost (10 vs 20) but the larger expected out-of-line cost,
both under cdfQ (10/3 vs 20/7) and under the real normal CDF (about 3.1 vs
0.12). -/
def tasksC2 : TaskList :=
  [("A", { task_id := "A", m := 19 / 2, s := 1, out_line_cost := 10, predecessor_set := [] }),
   ("B", { task_id := "B", m := 15 / 2, s := 1, out_line_cost := 20, predecessor_set := [] })]

def instC2 : Instance :=
  (Instance.build libQ "c2" tasksC2 (1 / 10) 1).toOption.getD default

def entriesC2 : List PotEntry :=
  (compute_pot_entries libQ instC2.task_list instC2.T
    [("1", ⟨"1", []⟩)] ⟨"1", []⟩).toOption.getD []

/-- The scenario of spec section 8 and claim C7: three tasks A -> B -> C,
m = 1, s = 0, out_line_cost = 5 each, q = 1 and c = 1. -/
def tasksC7 : TaskList :=
  [("A", { task_id := "A", m := 1, s := 0, out_line_cost := 5, predecessor_set := [] }),
   ("B", { task_id := "B", m := 1, s := 0, out_line_cost := 5, predecessor_set := ["A"] }),
   ("C", { task_id := "C", m := 1, s := 0, out_line_cost := 5, predecessor_set := ["B"] })]

def instC7 : Instance :=
  (Instance.build libQ "c7" tasksC7 1 1).toOption.getD default

/-- A small valid instance (chain A -> B, positive variances and costs) whose
run succeeds; shared input for witnesses. -/
def tasksW : TaskList :=
  [("A", { task_id := "A", m := 1, s := 1, out_line_cost := 5, predecessor_set := [] }),
   ("B", { task_id := "B", m := 1, s := 1, out_line_cost := 5, predecessor_set := ["A"] })]

def instW : Instance :=
  (Instance.build libQ "w" tasksW 1 1).toOption.getD default

def runW : Instance × Nat :=
  (execute_algorithm libQ instW).toOption.getD default

/-- A rank function witnessing that tasksW's precedence graph is acyclic. -/
def rankW : String → Nat := fun s => if s = "B" then 1 else 0

/-- A single-task valid instance (n = 1). -/
def tasksW1 : TaskList :=
  [("A", { task_id := "A", m := 1, s := 1, out_line_cost := 5, predecessor_set := [] })]

def instW1 : Instance :=
  (Instance.build libQ "w1" tasksW1 1 1).toOption.getD default

/-- A single task whose own and successors' out_line_cost are zero, so its
out_completion_cost is 0 (claim C9). -/
def tasksZ : TaskList :=
  [("X", { task_id := "X", m := 1, s := 1, out_line_cost := 0, predecessor_set := [] })]

/-! ### List helper lemmas -/

theorem filter_length_mono {α : Type} (p q : α → Bool)
    (hpq : ∀ a, q a = true → p a = true) :
    ∀ l : List α, (l.filter q).length ≤ (l.filter p).length := by
  intro l
  induction l with
  | nil => simp
  | cons x xs ih =>
    by_cases hq : q x = true
    · simp [List.filter_cons, hq, hpq x hq]
      omega
    · simp only [List.filter_cons, Bool.not_eq_true] at hq ⊢
      rw [hq]
      by_cases hp : p x = true
      · simp [hp]
        omega
      · simp only [Bool.not_eq_true] at hp
        rw [hp]
        simpa using ih

theorem filter_length_strict {α : Type} (p q : α → Bool)
    (hpq : ∀ b, q b = true → p b = true) (a : α) :
    ∀ l : List α, a ∈ l → p a = true → q a = false →
      (l.filter q).length < (l.filter p).length := by
  intro l
  induction l with
  | nil => simp
  | cons x xs ih =>
    intro hmem hpa hqa
    rcases List.mem_cons.mp hmem with hax | hax
    · subst hax
      rw [List.filter_cons, List.filter_cons, hqa, hpa]
      simp only [cond_false, cond_true, List.length_cons]
      exact Nat.lt_succ_of_le (filter_length_mono p q hpq xs)
    · by_cases hq : q x = true
      · rw [List.filter_cons, List.filter_cons, hq, hpq x hq]
        simpa using ih hax hpa hqa
      · simp only [Bool.not_eq_true] at hq
        rw [List.filter_cons, List.filter_cons, hq]
        by_cases hp : p x = true
        · rw [hp]
          simp only [cond_false, cond_true, List.length_cons]
          exact Nat.lt_succ_of_lt (ih hax hpa hqa)
        · simp only [Bool.not_eq_true] at hp
          rw [hp]
          simpa using ih hax hpa hqa

theorem nodup_append_singleton {α : Type} {l : List α} {a : α}
    (ha : a ∉ l) (hl : l.Nodup) : (l ++ [a]).Nodup := by
  induction l with
  | nil => simp
  | cons x xs ih =>
    rcases List.nodup_cons.mp hl with ⟨hx, hxs⟩
    refine List.nodup_cons.mpr ⟨?_, ih (fun h => ha (List.mem_cons_of_mem _ h)) hxs⟩
    intro hmem
    rcases List.mem_append.mp hmem with h | h
    · exact hx h
    · rcases List.mem_singleton.mp h with rfl
      exact ha (List.mem_cons_self _ _)

theorem split_append_singleton {α : Type} :
    ∀ (l xs ys : List α) (t a : α), l ++ [a] = xs ++ t :: ys →
      (xs = l ∧ t = a ∧ ys = []) ∨ ∃ ys2, l = xs ++ t :: ys2 ∧ ys = ys2 ++ [a] := by
  intro l xs
  induction xs generalizing l with
  | nil =>
    intro ys t a h
    cases l with
    | nil =>
      simp only [List.nil_append] at h
      cases h
      exact Or.inl ⟨rfl, rfl, rfl⟩
    | cons x l' =>
      simp only [List.cons_append, List.nil_append] at h
      cases h
      exact Or.inr ⟨l', rfl, rfl⟩
  | cons x xs' ih =>
    intro ys t a h
    cases l with
    | nil =>
      simp only [List.nil_append, List.cons_append] at h
      obtain ⟨rfl, h2⟩ := List.cons.inj h
      simp at h2
    | cons y l' =>
      simp only [List.cons_append] at h
      obtain ⟨rfl, h2⟩ := List.cons.inj h
      rcases ih l' ys t a h2 with ⟨h3, h4, h5⟩ | ⟨ys2, h3, h4⟩
      · exact Or.inl ⟨by rw [h3], h4, h5⟩
      · exact Or.inr ⟨ys2, by rw [List.cons_append, h3], h4⟩

theorem exists_min_rank (rank : String → Nat) :
    ∀ l : List String, l ≠ [] → ∃ u ∈ l, ∀ v ∈ l, rank u ≤ rank v := by
  intro l
  induction l with
  | nil => intro h; exact absurd rfl h
  | cons x xs ih =>
    intro _
    cases xs with
    | nil =>
      exact ⟨x, List.mem_singleton.mpr rfl, by
        intro v hv
        rcases List.mem_singleton.mp hv with rfl
        exact le_refl _⟩
    | cons y ys =>
      obtain ⟨u, hu, hmin⟩ := ih (by simp)
      by_cases hxu : rank x ≤ rank u
      · refine ⟨x, List.mem_cons_self _ _, ?_⟩
        intro v hv
        rcases List.mem_cons.mp hv with rfl | hv
        · exact le_refl _
        · exact le_trans hxu (hmin v hv)
      · refine ⟨u, List.mem_cons_of_mem _ hu, ?_⟩
        intro v hv
        rcases List.mem_cons.mp hv with rfl | hv
        · exact le_of_not_le hxu
        · exact hmin v hv

theorem foldl_add_inner (l : List (String × ℚ)) :
    ∀ acc : ℚ, l.foldl (fun a v => a + v.2) acc = acc + (l.map Prod.snd).sum := by
  induction l with
  | nil => intro acc; simp
  | cons x xs ih =>
    intro acc
    simp only [List.foldl_cons, List.map_cons, List.sum_cons]
    rw [ih]
    ring

theorem foldl_add_outer (l : StationList) :
    ∀ acc : ℚ,
      l.foldl (fun acc pr => pr.2.out_line_cost.foldl (fun a v => a + v.2) acc) acc =
        acc + (l.map (fun pr => (pr.2.out_line_cost.map Prod.snd).sum)).sum := by
  induction l with
  | nil => intro acc; simp
  | cons x xs ih =>
    intro acc
    simp only [List.foldl_cons, List.map_cons, List.sum_cons]
    rw [foldl_add_inner, ih]
    ring

/-! ### mapExcept lemmas -/

theorem mapExcept_ok_length {α β : Type} (f : α → Except String β) :
    ∀ (l : List α) (ys : List β), mapExcept f l = .ok ys → ys.length = l.length := by
  intro l
  induction l with
  | nil =>
    intro ys h
    simp only [mapExcept] at h
    cases h
    rfl
  | cons x xs ih =>
    intro ys h
    simp only [mapExcept] at h
    cases hx : f x with
    | error e => rw [hx] at h; cases h
    | ok y =>
      rw [hx] at h
      cases hxs : mapExcept f xs with
      | error e => rw [hxs] at h; cases h
      | ok ys' =>
        rw [hxs] at h
        cases h
        simp [ih ys' hxs]

theorem mapExcept_mem_of_ok {α β : Type} (f : α → Except String β) :
    ∀ (l : List α) (ys : List β), mapExcept f l = .ok ys →
      ∀ y ∈ ys, ∃ x ∈ l, f x = .ok y := by
  intro l
  induction l with
  | nil =>
    intro ys h
    simp only [mapExcept] at h
    cases h
    simp
  | cons x xs ih =>
    intro ys h y hy
    simp only [mapExcept] at h
    cases hx : f x with
    | error e => rw [hx] at h; cases h
    | ok y' =>
      rw [hx] at h
      cases hxs : mapExcept f xs with
      | error e => rw [hxs] at h; cases h
      | ok ys' =>
        rw [hxs] at h
        cases h
        rcases List.mem_cons.mp hy with rfl | hy'
        · exact ⟨x, List.mem_cons_self _ _, hx⟩
        · obtain ⟨x', hx', hfx'⟩ := ih ys' hxs y hy'
          exact ⟨x', List.mem_cons_of_mem _ hx', hfx'⟩

theorem mapExcept_ok_of_forall {α β : Type} (f : α → Except String β) :
    ∀ l : List α, (∀ x ∈ l, ∃ y, f x = .ok y) →
      ∃ ys, mapExcept f l = .ok ys := by
  intro l
  induction l with
  | nil => intro _; exact ⟨[], rfl⟩
  | cons x xs ih =>
    intro h
    obtain ⟨y, hy⟩ := h x (List.mem_cons_self _ _)
    obtain ⟨ys, hys⟩ := ih (fun x' hx' => h x' (List.mem_cons_of_mem _ hx'))
    refine ⟨y :: ys, ?_⟩
    simp only [mapExcept]
    rw [hy, hys]

theorem mapExcept_error_msg {α β : Type} (f : α → Except String β) (m0 : String)
    (hmsg : ∀ x e, f x = .error e → e = m0) :
    ∀ l : List α, (∃ x ∈ l, ∃ e, f x = .error e) →
      mapExcept f l = .error m0 := by
  intro l
  induction l with
  | nil => rintro ⟨x, hx, -⟩; cases hx
  | cons x xs ih =>
    rintro ⟨x', hx', e, he⟩
    simp only [mapExcept]
    cases hx : f x with
    | error e0 =>
      rw [hmsg x e0 hx]
    | ok y =>
      have hxs : ∃ x ∈ xs, ∃ e, f x = .error e := by
        rcases List.mem_cons.mp hx' with rfl | hmem
        · rw [hx] at he; cases he
        · exact ⟨x', hmem, e, he⟩
      rw [ih hxs]

/-! ### findTask, assigned_tasks and potential_tasks lemmas -/

theorem findTask_mem {tl : TaskList} {tid : String} (h : tid ∈ keysOf tl) :
    (tid, findTask tl tid) ∈ tl := by
  unfold findTask
  cases hf : tl.find? (fun pr => decide (pr.1 = tid)) with
  | none =>
    exfalso
    rcases List.mem_map.mp h with ⟨pr, hpr, hfst⟩
    have := List.find?_eq_none.mp hf pr hpr
    simp [hfst] at this
  | some pr =>
    have h1 : pr.1 = tid := by
      have := List.find?_some hf
      simpa using this
    have h2 : pr ∈ tl := List.mem_of_find?_eq_some hf
    have : (tid, pr.2) = pr := by
      rw [← h1]
    rw [this]
    exact h2

theorem assigned_append (l1 l2 : StationList) :
    assigned_tasks (l1 ++ l2) = assigned_tasks l1 ++ assigned_tasks l2 := by
  induction l1 with
  | nil => simp [assigned_tasks]
  | cons x xs ih => simp [assigned_tasks, ih]

theorem assigned_pair (prev : StationList) (i : String) (st : Station) :
    assigned_tasks (prev ++ [(i, st)]) = assigned_tasks prev ++ stationTasks st := by
  rw [assigned_append]
  simp [assigned_tasks]

theorem stationTasks_extend (i : String) (olc : List (String × ℚ)) (a : String) (v : ℚ) :
    stationTasks ⟨i, olc ++ [(a, v)]⟩ = stationTasks ⟨i, olc⟩ ++ [a] := by
  simp [stationTasks]

theorem mem_potential {tl : TaskList} {stations : StationList} {tid : String} :
    tid ∈ potential_tasks tl stations ↔
      tid ∈ keysOf tl ∧ tid ∉ assigned_tasks stations ∧
        ∀ p ∈ (findTask tl tid).predecessor_set, p ∈ assigned_tasks stations := by
  unfold potential_tasks
  rw [List.mem_filter]
  simp [List.all_eq_true, and_assoc]

theorem potential_congr {tl : TaskList} {s1 s2 : StationList}
    (h : assigned_tasks s1 = assigned_tasks s2) :
    potential_tasks tl s1 = potential_tasks tl s2 := by
  unfold potential_tasks
  rw [h]

theorem uaCount_congr {tl : TaskList} {s1 s2 : StationList}
    (h : assigned_tasks s1 = assigned_tasks s2) :
    uaCount tl s1 = uaCount tl s2 := by
  unfold uaCount
  rw [h]

theorem uaFrom_le (tl : TaskList) (A : List String) : uaFrom tl A ≤ tl.length := by
  unfold uaFrom
  calc ((keysOf tl).filter _).length ≤ (keysOf tl).length := List.length_filter_le _ _
    _ = tl.length := by simp [keysOf]

theorem uaFrom_append_lt {tl : TaskList} {A : List String} {a : String}
    (ha : a ∈ keysOf tl) (hna : a ∉ A) :
    uaFrom tl (A ++ [a]) < uaFrom tl A := by
  unfold uaFrom
  refine filter_length_strict _ _ ?_ a (keysOf tl) ha ?_ ?_
  · intro b hb
    simp only [decide_eq_true_eq] at hb ⊢
    intro hmem
    exact hb (List.mem_append_left _ hmem)
  · simpa using hna
  · simp

/-! ### pickMaxBy / pickMinBy / select_task lemmas -/

theorem pickMaxBy_spec {α : Type} [LinearOrder α] (f : PotEntry → α) :
    ∀ (l : List PotEntry) (b : PotEntry),
      ∃ l1 l2, b :: l = l1 ++ pickMaxBy f b l :: l2 ∧
        (∀ x ∈ l1, f x < f (pickMaxBy f b l)) ∧
        (∀ x ∈ l2, f x ≤ f (pickMaxBy f b l)) := by
  intro l
  induction l with
  | nil =>
    intro b
    exact ⟨[], [], rfl, by simp, by simp⟩
  | cons x xs ih =>
    intro b
    by_cases hbx : f b < f x
    · have hpick : pickMaxBy f b (x :: xs) = pickMaxBy f x xs := by
        simp [pickMaxBy, hbx]
      obtain ⟨l1, l2, hsplit, hlt, hle⟩ := ih x
      have hxle : f x ≤ f (pickMaxBy f x xs) := by
        cases l1 with
        | nil =>
          simp only [List.nil_append] at hsplit
          obtain ⟨h1, -⟩ := List.cons.inj hsplit
          exact le_of_eq (congrArg f h1)
        | cons a l1' =>
          simp only [List.cons_append] at hsplit
          obtain ⟨h1, -⟩ := List.cons.inj hsplit
          refine le_of_lt (hlt x ?_)
          rw [h1]
          exact List.mem_cons_self _ _
      rw [hpick]
      refine ⟨b :: l1, l2, ?_, ?_, hle⟩
      · rw [List.cons_append, ← hsplit]
      · intro y hy
        rcases List.mem_cons.mp hy with rfl | hy'
        · exact lt_of_lt_of_le hbx hxle
        · exact hlt y hy'
    · have hpick : pickMaxBy f b (x :: xs) = pickMaxBy f b xs := by
        simp [pickMaxBy, hbx]
      obtain ⟨l1, l2, hsplit, hlt, hle⟩ := ih b
      rw [hpick]
      cases l1 with
      | nil =>
        simp only [List.nil_append] at hsplit
        obtain ⟨h1, h2⟩ := List.cons.inj hsplit
        refine ⟨[], x :: xs, ?_, by simp, ?_⟩
        · rw [List.nil_append, ← h1]
        · intro y hy
          rw [← h1]
          rcases List.mem_cons.mp hy with rfl | hy'
          · exact le_of_not_lt hbx
          · rw [h1]
            exact hle y (h2 ▸ hy')
      | cons a l1' =>
        simp only [List.cons_append] at hsplit
        obtain ⟨h1, h2⟩ := List.cons.inj hsplit
        have hbmem : b ∈ a :: l1' := by
          rw [← h1]
          exact List.mem_cons_self _ _
        refine ⟨b :: x :: l1', l2, ?_, ?_, hle⟩
        · rw [List.cons_append, List.cons_append, ← h2]
        · intro y hy
          rcases List.mem_cons.mp hy with rfl | hy'
          · exact hlt y hbmem
          · rcases List.mem_cons.mp hy' with rfl | hy''
            · exact lt_of_le_of_lt (le_of_not_lt hbx) (hlt b hbmem)
            · exact hlt y (List.mem_cons_of_mem _ hy'')

theorem pickMinBy_eq_dual {α : Type} [LinearOrder α] (f : PotEntry → α) :
    ∀ (l : List PotEntry) (b : PotEntry),
      pickMinBy f b l = pickMaxBy (fun e => OrderDual.toDual (f e)) b l := by
  intro l
  induction l with
  | nil => intro b; rfl
  | cons x xs ih =>
    intro b
    simp only [pickMinBy, pickMaxBy]
    rw [ih]
    congr 1

theorem pickMinBy_spec {α : Type} [LinearOrder α] (f : PotEntry → α)
    (l : List PotEntry) (b : PotEntry) :
    ∃ l1 l2, b :: l = l1 ++ pickMinBy f b l :: l2 ∧
      (∀ x ∈ l1, f (pickMinBy f b l) < f x) ∧
      (∀ x ∈ l2, f (pickMinBy f b l) ≤ f x) := by
  obtain ⟨l1, l2, hsplit, hlt, hle⟩ := pickMaxBy_spec (fun e => OrderDual.toDual (f e)) l b
  rw [pickMinBy_eq_dual]
  exact ⟨l1, l2, hsplit, fun x hx => by simpa using hlt x hx,
    fun x hx => by simpa using hle x hx⟩

theorem pickMaxOpt_firstMax (f : PotEntry → ℚ) {l : List PotEntry} {e : PotEntry}
    (h : pickMaxOpt f l = some e) : FirstMaxBy f l e := by
  cases l with
  | nil => cases h
  | cons x xs =>
    simp only [pickMaxOpt, Option.some.injEq] at h
    subst h
    exact pickMaxBy_spec f xs x

theorem pickMinOpt_firstMin (f : PotEntry → ℚ) {l : List PotEntry} {e : PotEntry}
    (h : pickMinOpt f l = some e) : FirstMinBy f l e := by
  cases l with
  | nil => cases h
  | cons x xs =>
    simp only [pickMinOpt, Option.some.injEq] at h
    subst h
    exact pickMinBy_spec f xs x

theorem pickMaxOpt_mem {α : Type} [LinearOrder α] (f : PotEntry → α)
    {l : List PotEntry} {e : PotEntry} (h : pickMaxOpt f l = some e) : e ∈ l := by
  cases l with
  | nil => cases h
  | cons x xs =>
    simp only [pickMaxOpt, Option.some.injEq] at h
    subst h
    obtain ⟨l1, l2, hsplit, -, -⟩ := pickMaxBy_spec f xs x
    rw [hsplit]
    exact List.mem_append_right _ (List.mem_cons_self _ _)

theorem pickMinOpt_mem {α : Type} [LinearOrder α] (f : PotEntry → α)
    {l : List PotEntry} {e : PotEntry} (h : pickMinOpt f l = some e) : e ∈ l := by
  cases l with
  | nil => cases h
  | cons x xs =>
    simp only [pickMinOpt, Option.some.injEq] at h
    subst h
    rw [pickMinBy_eq_dual]
    obtain ⟨l1, l2, hsplit, -, -⟩ := pickMaxBy_spec (fun e => OrderDual.toDual (f e)) xs x
    rw [hsplit]
    exact List.mem_append_right _ (List.mem_cons_self _ _)

theorem pickMaxOpt_isSome {α : Type} [LinearOrder α] (f : PotEntry → α)
    {l : List PotEntry} (h : l.length > 0) : ∃ e, pickMaxOpt f l = some e := by
  cases l with
  | nil => simp at h
  | cons x xs => exact ⟨_, rfl⟩

theorem pickMinOpt_isSome {α : Type} [LinearOrder α] (f : PotEntry → α)
    {l : List PotEntry} (h : l.length > 0) : ∃ e, pickMinOpt f l = some e := by
  cases l with
  | nil => simp at h
  | cons x xs => exact ⟨_, rfl⟩

theorem select_task_mem {entries : List PotEntry} {b : Bool} {e : PotEntry}
    (h : select_task entries b = some e) : e ∈ entries := by
  simp only [select_task] at h
  split_ifs at h with h1 h2 h3
  · exact List.mem_of_mem_filter (pickMaxOpt_mem _ h)
  · exact List.mem_of_mem_filter (pickMaxOpt_mem _ h)
  · exact List.mem_of_mem_filter (pickMinOpt_mem _ h)

theorem select_task_isSome_of_empty {entries : List PotEntry}
    (hne : entries ≠ [])
    (hwf : ∀ e ∈ entries,
      e.status = "safe" ∨ e.status = "desirable" ∨ e.status = "critical") :
    ∃ e, select_task entries true = some e := by
  simp only [select_task]
  split_ifs with h1 h2 h3
  · exact pickMaxOpt_isSome _ h1.1
  · exact pickMaxOpt_isSome _ h2
  · exact pickMinOpt_isSome _ h3
  · exfalso
    cases entries with
    | nil => exact hne rfl
    | cons x xs =>
      have hx := hwf x (List.mem_cons_self _ _)
      have hcrit : ¬((x :: xs).filter (fun x => decide (x.status = "critical"))).length > 0 := by
        intro hc
        exact h1 ⟨hc, by trivial⟩
      rcases hx with hs | hd | hc
      · refine h2 ?_
        have : x ∈ (x :: xs).filter (fun x => decide (x.status = "safe")) :=
          List.mem_filter.mpr ⟨List.mem_cons_self _ _, by simp [hs]⟩
        exact List.length_pos.mpr (List.ne_nil_of_mem this)
      · refine h3 ?_
        have : x ∈ (x :: xs).filter (fun x => decide (x.status = "desirable")) :=
          List.mem_filter.mpr ⟨List.mem_cons_self _ _, by simp [hd]⟩
        exact List.length_pos.mpr (List.ne_nil_of_mem this)
      · refine hcrit ?_
        have : x ∈ (x :: xs).filter (fun x => decide (x.status = "critical")) :=
          List.mem_filter.mpr ⟨List.mem_cons_self _ _, by simp [hc]⟩
        exact List.length_pos.mpr (List.ne_nil_of_mem this)

theorem select_task_safe {entries : List PotEntry} {b : Bool}
    (hno : ¬((entries.filter (fun x => decide (x.status = "critical"))).length > 0 ∧ b = true))
    (hsafe : (entries.filter (fun x => decide (x.status = "safe"))).length > 0) :
    ∃ e, select_task entries b = some e ∧
      FirstMaxBy (fun x => x.out_compl_cost)
        (entries.filter (fun x => decide (x.status = "safe"))) e := by
  simp only [select_task]
  rw [if_neg hno, if_pos hsafe]
  obtain ⟨e, he⟩ := pickMaxOpt_isSome (fun x => x.out_compl_cost) hsafe
  exact ⟨e, he, pickMaxOpt_firstMax _ he⟩

theorem select_task_desirable {entries : List PotEntry} {b : Bool}
    (hno : ¬((entries.filter (fun x => decide (x.status = "critical"))).length > 0 ∧ b = true))
    (hnosafe : ¬(entries.filter (fun x => decide (x.status = "safe"))).length > 0)
    (hdes : (entries.filter (fun x => decide (x.status = "desirable"))).length > 0) :
    ∃ e, select_task entries b = some e ∧
      FirstMinBy (fun x => x.out_compl_cost)
        (entries.filter (fun x => decide (x.status = "desirable"))) e := by
  simp only [select_task]
  rw [if_neg hno, if_neg hnosafe, if_pos hdes]
  obtain ⟨e, he⟩ := pickMinOpt_isSome (fun x => x.out_compl_cost) hdes
  exact ⟨e, he, pickMinOpt_firstMin _ he⟩

/-! ### compute_status lemmas -/

theorem compute_status_ok {lib : NormalLib} {tl : TaskList} {T : ℚ} {tid : String}
    {station : Station} {e : PotEntry}
    (h : compute_status lib tl T tid station = .ok e) :
    e.task_id = tid ∧
      (e.status = "safe" ∨ e.status = "desirable" ∨ e.status = "critical") := by
  simp only [compute_status] at h
  split at h
  · cases h
  · split at h
    · cases h
    · cases h
      refine ⟨rfl, ?_⟩
      dsimp only
      split
      · exact Or.inl rfl
      · split
        · exact Or.inr (Or.inl rfl)
        · exact Or.inr (Or.inr rfl)

theorem compute_status_isOk {lib : NormalLib} {tl : TaskList} {T : ℚ} {tid : String}
    {station : Station}
    (Hsq : ∀ x : ℚ, 0 < x → 0 < lib.sqrt x)
    (HS : ∀ pr ∈ tl, 0 < (pr.2 : Task).s)
    (hstation : ∀ x ∈ stationTasks station, x ∈ keysOf tl)
    (htid : tid ∈ keysOf tl) :
    ∃ e, compute_status lib tl T tid station = .ok e := by
  have hssum : 0 < station_s_sum tl station tid := by
    unfold station_s_sum
    have h1 : 0 ≤ (station.out_line_cost.map (fun pr => (findTask tl pr.1).s)).sum := by
      refine List.sum_nonneg ?_
      intro x hx
      rcases List.mem_map.mp hx with ⟨pr, hpr, rfl⟩
      have hmem : pr.1 ∈ stationTasks station := List.mem_map.mpr ⟨pr, hpr, rfl⟩
      exact le_of_lt (HS _ (findTask_mem (hstation _ hmem)))
    have h2 : 0 < (findTask tl tid).s := HS _ (findTask_mem htid)
    linarith
  simp only [compute_status]
  rw [if_neg (not_lt.mpr (le_of_lt hssum)), if_neg (ne_of_gt (Hsq _ hssum))]
  exact ⟨_, rfl⟩

/-! ### GoodAssigned preservation and station_loop structure -/

theorem station_eta (st : Station) :
    (⟨st.station_id, st.out_line_cost⟩ : Station) = st := rfl

theorem good_append {tl : TaskList} {A : List String} {a : String}
    (hg : GoodAssigned tl A) (ha : a ∈ keysOf tl) (hna : a ∉ A)
    (hp : ∀ p ∈ (findTask tl a).predecessor_set, p ∈ A) :
    GoodAssigned tl (A ++ [a]) := by
  refine ⟨nodup_append_singleton hna hg.nodup, ?_, ?_⟩
  · intro x hx
    rcases List.mem_append.mp hx with h | h
    · exact hg.sub x h
    · rcases List.mem_singleton.mp h with rfl
      exact ha
  · intro xs t ys heq p hpmem
    rcases split_append_singleton A xs ys t a heq with ⟨h1, h2, h3⟩ | ⟨ys2, h1, h2⟩
    · subst h1
      subst h2
      exact hp p hpmem
    · exact hg.prec xs t ys2 h1 p hpmem

theorem station_loop_extends (lib : NormalLib) (tl : TaskList) (T : ℚ) :
    ∀ (fuel : Nat) (prev : StationList) (cur st : Station) (cnt : Nat),
      station_loop lib tl T fuel prev cur = .ok (st, cnt) →
      st.station_id = cur.station_id ∧
        ∃ added, st.out_line_cost = cur.out_line_cost ++ added ∧
          cnt = added.length + 1 := by
  intro fuel
  induction fuel with
  | zero => intro prev cur st cnt h; simp [station_loop] at h
  | succ fuel ih =>
    intro prev cur st cnt h
    simp only [station_loop] at h
    split at h
    · cases h
    · split at h
      · cases h
        exact ⟨rfl, [], by simp, rfl⟩
      · split at h
        · cases h
          exact ⟨rfl, [], by simp, rfl⟩
        · rename_i sel hsel
          split at h
          · cases h
          · rename_i hrec
            cases h
            obtain ⟨hid, added, holc, hcnt⟩ := ih prev _ _ _ hrec
            refine ⟨hid, (sel.task_id, sel.expected_cost_out_line) :: added, ?_, ?_⟩
            · rw [holc]
              simp
            · simp only [List.length_cons]
              omega

theorem station_loop_good (lib : NormalLib) (tl : TaskList) (T : ℚ) :
    ∀ (fuel : Nat) (prev : StationList) (cur st : Station) (cnt : Nat),
      station_loop lib tl T fuel prev cur = .ok (st, cnt) →
      GoodAssigned tl (assigned_tasks (prev ++ [(cur.station_id, cur)])) →
      GoodAssigned tl (assigned_tasks (prev ++ [(cur.station_id, st)])) := by
  intro fuel
  induction fuel with
  | zero => intro prev cur st cnt h; simp [station_loop] at h
  | succ fuel ih =>
    intro prev cur st cnt h hg
    simp only [station_loop] at h
    split at h
    · cases h
    · rename_i entries hE
      split at h
      · cases h
        exact hg
      · split at h
        · cases h
          exact hg
        · rename_i sel hsel
          have hmem := select_task_mem hsel
          obtain ⟨tid, htidpot, hcs⟩ := mapExcept_mem_of_ok _ _ _ hE sel hmem
          obtain ⟨hstid, -⟩ := compute_status_ok hcs
          obtain ⟨hkey, hnass, hpreds⟩ := mem_potential.mp htidpot
          split at h
          · cases h
          · rename_i hrec
            cases h
            refine ih prev ⟨cur.station_id, cur.out_line_cost ++
              [(sel.task_id, sel.expected_cost_out_line)]⟩ _ _ hrec ?_
            have hassign :
                assigned_tasks (prev ++ [(cur.station_id,
                  ⟨cur.station_id, cur.out_line_cost ++
                    [(sel.task_id, sel.expected_cost_out_line)]⟩)]) =
                assigned_tasks (prev ++ [(cur.station_id, cur)]) ++ [sel.task_id] := by
              rw [assigned_pair, assigned_pair, stationTasks_extend, station_eta,
                List.append_assoc]
            rw [hassign]
            refine good_append hg ?_ ?_ ?_
            · rw [hstid]; exact hkey
            · rw [hstid]; exact hnass
            · rw [hstid]; exact hpreds

theorem station_loop_nonempty (lib : NormalLib) (tl : TaskList) (T : ℚ) :
    ∀ (fuel : Nat) (prev : StationList) (cur st : Station) (cnt : Nat),
      station_loop lib tl T fuel prev cur = .ok (st, cnt) →
      cur.out_line_cost = [] →
      potential_tasks tl (prev ++ [(cur.station_id, cur)]) ≠ [] →
      st.out_line_cost ≠ [] := by
  intro fuel prev cur st cnt h hol hpot
  cases fuel with
  | zero => simp [station_loop] at h
  | succ fuel =>
    simp only [station_loop] at h
    split at h
    · cases h
    · rename_i entries hE
      have hlen := mapExcept_ok_length _ _ _ hE
      have hne : entries ≠ [] := by
        intro hnil
        apply hpot
        rw [hnil] at hlen
        exact List.length_eq_zero.mp hlen.symm
      have hwf : ∀ e ∈ entries,
          e.status = "safe" ∨ e.status = "desirable" ∨ e.status = "critical" := by
        intro e he
        obtain ⟨tid, -, hcs⟩ := mapExcept_mem_of_ok _ _ _ hE e he
        exact (compute_status_ok hcs).2
      rw [if_neg (by simpa using hne)] at h
      rw [hol] at h
      obtain ⟨sel, hsel⟩ := select_task_isSome_of_empty hne hwf
      simp only [List.isEmpty_nil] at h
      rw [hsel] at h
      split at h
      · rename_i heqn
        simp at heqn
      · rename_i sel2 heqs
        cases heqs
        split at h
        · cases h
        · rename_i hrec
          cases h
          obtain ⟨-, added, holc, -⟩ :=
            station_loop_extends lib tl T fuel prev _ _ _ hrec
          rw [holc]
          simp

theorem station_loop_main (lib : NormalLib) (tl : TaskList) (T : ℚ)
    (Hsq : ∀ x : ℚ, 0 < x → 0 < lib.sqrt x)
    (HS : ∀ pr ∈ tl, 0 < (pr.2 : Task).s) :
    ∀ (fuel : Nat) (prev : StationList) (cur : Station),
      (∀ x ∈ assigned_tasks (prev ++ [(cur.station_id, cur)]), x ∈ keysOf tl) →
      uaCount tl (prev ++ [(cur.station_id, cur)]) + 2 ≤ fuel →
      ∃ st cnt, station_loop lib tl T fuel prev cur = .ok (st, cnt) ∧
        (∀ x ∈ assigned_tasks (prev ++ [(cur.station_id, st)]), x ∈ keysOf tl) ∧
        cnt + uaCount tl (prev ++ [(cur.station_id, st)]) ≤
          uaCount tl (prev ++ [(cur.station_id, cur)]) + 1 ∧
        (cur.out_line_cost = [] →
          potential_tasks tl (prev ++ [(cur.station_id, cur)]) ≠ [] →
          uaCount tl (prev ++ [(cur.station_id, st)]) <
            uaCount tl (prev ++ [(cur.station_id, cur)])) := by
  intro fuel
  induction fuel with
  | zero =>
    intro prev cur hclosed hfuel
    omega
  | succ fuel ih =>
    intro prev cur hclosed hfuel
    have hstation : ∀ x ∈ stationTasks cur, x ∈ keysOf tl := by
      intro x hx
      apply hclosed
      rw [assigned_pair]
      exact List.mem_append_right _ hx
    have hforall : ∀ tid ∈ potential_tasks tl (prev ++ [(cur.station_id, cur)]),
        ∃ e, compute_status lib tl T tid cur = .ok e := by
      intro tid htid
      obtain ⟨hk, -, -⟩ := mem_potential.mp htid
      exact compute_status_isOk Hsq HS hstation hk
    obtain ⟨entries, hE⟩ := mapExcept_ok_of_forall _ _ hforall
    have hE' : compute_pot_entries lib tl T (prev ++ [(cur.station_id, cur)]) cur =
        .ok entries := hE
    have hlen := mapExcept_ok_length _ _ _ hE
    have hwf : ∀ e ∈ entries,
        e.status = "safe" ∨ e.status = "desirable" ∨ e.status = "critical" := by
      intro e he
      obtain ⟨tid, -, hcs⟩ := mapExcept_mem_of_ok _ _ _ hE e he
      exact (compute_status_ok hcs).2
    by_cases hempty : entries.isEmpty = true
    · refine ⟨cur, 1, ?_, hclosed, by omega, ?_⟩
      · simp only [station_loop]
        rw [hE']
        dsimp only
        rw [if_pos hempty]
      · intro hol hpot
        exfalso
        apply hpot
        rw [List.isEmpty_iff] at hempty
        rw [hempty] at hlen
        exact List.length_eq_zero.mp hlen.symm
    · have hne : entries ≠ [] := by
        intro hnil
        rw [hnil] at hempty
        exact hempty rfl
      cases hsel : select_task entries cur.out_line_cost.isEmpty with
      | none =>
        refine ⟨cur, 1, ?_, hclosed, by omega, ?_⟩
        · simp only [station_loop]
          rw [hE']
          dsimp only
          rw [if_neg hempty, hsel]
        · intro hol hpot
          exfalso
          obtain ⟨sel, hsome⟩ := select_task_isSome_of_empty hne hwf
          rw [hol] at hsel
          simp only [List.isEmpty_nil] at hsel
          rw [hsel] at hsome
          cases hsome
      | some sel =>
        have hmem := select_task_mem hsel
        obtain ⟨tid, htidpot, hcs⟩ := mapExcept_mem_of_ok _ _ _ hE sel hmem
        obtain ⟨hstid, -⟩ := compute_status_ok hcs
        obtain ⟨hkey, hnass, hpreds⟩ := mem_potential.mp htidpot
        have hassign :
            assigned_tasks (prev ++ [(cur.station_id,
              (⟨cur.station_id, cur.out_line_cost ++
                [(sel.task_id, sel.expected_cost_out_line)]⟩ : Station))]) =
            assigned_tasks (prev ++ [(cur.station_id, cur)]) ++ [sel.task_id] := by
          rw [assigned_pair, assigned_pair, stationTasks_extend, station_eta,
            List.append_assoc]
        have hclosed2 : ∀ x ∈ assigned_tasks (prev ++ [(cur.station_id,
            (⟨cur.station_id, cur.out_line_cost ++
              [(sel.task_id, sel.expected_cost_out_line)]⟩ : Station))]),
            x ∈ keysOf tl := by
          rw [hassign]
          intro x hx
          rcases List.mem_append.mp hx with hx | hx
          · exact hclosed x hx
          · rcases List.mem_singleton.mp hx with rfl
            rw [hstid]
            exact hkey
        have hua2 : uaCount tl (prev ++ [(cur.station_id,
            (⟨cur.station_id, cur.out_line_cost ++
              [(sel.task_id, sel.expected_cost_out_line)]⟩ : Station))]) <
            uaCount tl (prev ++ [(cur.station_id, cur)]) := by
          unfold uaCount
          rw [hassign]
          refine uaFrom_append_lt ?_ ?_
          · rw [hstid]; exact hkey
          · rw [hstid]; exact hnass
        obtain ⟨st, cnt2, hrec, hclosed3, hcnt3, -⟩ :=
          ih prev ⟨cur.station_id, cur.out_line_cost ++
            [(sel.task_id, sel.expected_cost_out_line)]⟩ hclosed2 (by dsimp only; omega)
        obtain ⟨-, added2, -, hcnt2⟩ :=
          station_loop_extends lib tl T fuel prev _ _ _ hrec
        dsimp only at hclosed3 hcnt3
        refine ⟨st, cnt2 + 1, ?_, hclosed3, by omega, ?_⟩
        · simp only [station_loop]
          rw [hE']
          dsimp only
          rw [if_neg hempty, hsel]
          dsimp only
          rw [hrec]
        · intro hol hpot
          have h1 : cnt2 ≥ 1 := by omega
          omega

theorem outer_loop_spec (lib : NormalLib) (tl : TaskList) (T : ℚ) :
    ∀ (fuel : Nat) (stations : StationList) (n : Nat) (res : StationList) (cnt : Nat),
      outer_loop lib tl T fuel stations n = .ok (res, cnt) →
      GoodAssigned tl (assigned_tasks stations) →
      GoodAssigned tl (assigned_tasks res) ∧ potential_tasks tl res = [] ∧
        ∃ created, res = stations ++ created ∧
          created.map Prod.fst =
            (List.range created.length).map (fun i => toString (n + i + 1)) ∧
          ∀ pr ∈ created, (pr.2 : Station).out_line_cost ≠ [] := by
  intro fuel
  induction fuel with
  | zero => intro stations n res cnt h; simp [outer_loop] at h
  | succ fuel ih =>
    intro stations n res cnt h hg
    simp only [outer_loop] at h
    split at h
    · rename_i hpot
      cases h
      exact ⟨hg, List.isEmpty_iff.mp hpot, [], by simp, by simp, by simp⟩
    · rename_i hpot
      split at h
      next e heq => cases h
      next st1 cnt1 hsl =>
        split at h
        next e heq => cases h
        next res2 cnt2 hrec =>
          cases h
          have hassign_eq :
              assigned_tasks (stations ++
                [((toString (n + 1) : String), (⟨toString (n + 1), []⟩ : Station))]) =
              assigned_tasks stations := by
            rw [assigned_pair]
            simp [stationTasks]
          have hg1 : GoodAssigned tl (assigned_tasks (stations ++
              [((toString (n + 1) : String), (⟨toString (n + 1), []⟩ : Station))])) := by
            rw [hassign_eq]
            exact hg
          have hg2 := station_loop_good lib tl T (tl.length + 2) stations
            ⟨toString (n + 1), []⟩ st1 cnt1 hsl hg1
          dsimp only at hg2
          have hpotne : potential_tasks tl (stations ++
              [((toString (n + 1) : String), (⟨toString (n + 1), []⟩ : Station))]) ≠ [] := by
            rw [potential_congr hassign_eq]
            intro hnil
            rw [hnil] at hpot
            exact hpot rfl
          have hstne : st1.out_line_cost ≠ [] := by
            refine station_loop_nonempty lib tl T (tl.length + 2) stations
              ⟨toString (n + 1), []⟩ st1 cnt1 hsl rfl ?_
            exact hpotne
          obtain ⟨hgood, hpotres, created, hres, hids, hne⟩ :=
            ih (stations ++ [(toString (n + 1), st1)]) (n + 1) res cnt2 hrec hg2
          refine ⟨hgood, hpotres, (toString (n + 1), st1) :: created, ?_, ?_, ?_⟩
          · rw [hres, List.append_assoc]
            rfl
          · simp only [List.map_cons, List.length_cons]
            rw [hids, List.range_succ_eq_map, List.map_cons, List.map_map]
            refine List.cons_eq_cons.mpr ⟨?_, ?_⟩
            · exact congrArg toString (by omega)
            · refine List.map_congr_left ?_
              intro i hi
              simp only [Function.comp_apply]
              exact congrArg toString (by omega)
          · intro pr hpr
            rcases List.mem_cons.mp hpr with rfl | hpr2
            · exact hstne
            · exact hne pr hpr2

theorem outer_loop_main (lib : NormalLib) (tl : TaskList) (T : ℚ)
    (Hsq : ∀ x : ℚ, 0 < x → 0 < lib.sqrt x)
    (HS : ∀ pr ∈ tl, 0 < (pr.2 : Task).s) :
    ∀ (fuel : Nat) (stations : StationList) (n : Nat),
      (∀ x ∈ assigned_tasks stations, x ∈ keysOf tl) →
      uaCount tl stations < fuel →
      ∃ res cnt, outer_loop lib tl T fuel stations n = .ok (res, cnt) ∧
        cnt ≤ 2 * uaCount tl stations := by
  intro fuel
  induction fuel with
  | zero => intro stations n h hua; omega
  | succ fuel ih =>
    intro stations n hclosed hua
    by_cases hpot : (potential_tasks tl stations).isEmpty = true
    · refine ⟨stations, 0, ?_, by omega⟩
      simp only [outer_loop]
      rw [if_pos hpot]
    · have hassign_eq :
          assigned_tasks (stations ++
            [((toString (n + 1) : String), (⟨toString (n + 1), []⟩ : Station))]) =
          assigned_tasks stations := by
        rw [assigned_pair]
        simp [stationTasks]
      have hclosed1 : ∀ x ∈ assigned_tasks (stations ++
          [((toString (n + 1) : String), (⟨toString (n + 1), []⟩ : Station))]),
          x ∈ keysOf tl := by
        rw [hassign_eq]
        exact hclosed
      have huaeq : uaCount tl (stations ++
          [((toString (n + 1) : String), (⟨toString (n + 1), []⟩ : Station))]) =
          uaCount tl stations := uaCount_congr hassign_eq
      have hle : uaCount tl stations ≤ tl.length := uaFrom_le tl _
      obtain ⟨st, cnt1, hsl, hclosed2, hcnt1, hprog⟩ :=
        station_loop_main lib tl T Hsq HS (tl.length + 2) stations
          ⟨toString (n + 1), []⟩ hclosed1 (by dsimp only; omega)
      dsimp only at hclosed2 hcnt1 hprog
      have hpotne : potential_tasks tl (stations ++
          [((toString (n + 1) : String), (⟨toString (n + 1), []⟩ : Station))]) ≠ [] := by
        rw [potential_congr hassign_eq]
        intro hnil
        rw [hnil] at hpot
        exact hpot rfl
      have hprog2 := hprog rfl hpotne
      obtain ⟨res, cnt2, hrec, hcnt2⟩ :=
        ih (stations ++ [(toString (n + 1), st)]) (n + 1) hclosed2 (by omega)
      refine ⟨res, cnt1 + cnt2, ?_, by omega⟩
      simp only [outer_loop]
      rw [if_neg hpot]
      try dsimp only
      rw [hsl]
      try dsimp only
      rw [hrec]

/-! ### execute_algorithm unfolding and remaining graph lemmas -/

theorem execute_algorithm_ok {lib : NormalLib} {inst inst' : Instance} {cnt : Nat}
    (h : execute_algorithm lib inst = .ok (inst', cnt)) :
    ∃ stations, outer_loop lib inst.task_list inst.T (inst.task_list.length + 1)
        inst.station_list 0 = .ok (stations, cnt) ∧
      inst'.task_list = inst.task_list ∧
      inst'.T = inst.T ∧ inst'.c = inst.c ∧
      inst'.station_list = stations ∧
      inst'.total_unit_cost =
        inst.total_unit_cost +
          (stations.map (fun pr => ((pr.2 : Station).out_line_cost.map Prod.snd).sum)).sum +
          inst.T * inst.c * (stations.length : ℚ) := by
  simp only [execute_algorithm] at h
  split at h
  next e heq => cases h
  next stations cnt2 heq =>
    cases h
    refine ⟨stations, heq, rfl, rfl, rfl, rfl, ?_⟩
    dsimp only
    rw [foldl_add_outer]

theorem good_nil (tl : TaskList) : GoodAssigned tl (assigned_tasks []) := by
  refine ⟨List.nodup_nil, ?_, ?_⟩
  · intro x hx
    cases hx
  · intro xs t ys heq
    exact absurd heq.symm (List.append_ne_nil_of_right_ne_nil _ (by simp))

theorem potential_nonempty (tl : TaskList) (stations : StationList)
    (rank : String → Nat)
    (HR : ∀ pr ∈ tl, ∀ p ∈ (pr.2 : Task).predecessor_set, rank p < rank pr.1)
    (HP : ∀ pr ∈ tl, ∀ p ∈ (pr.2 : Task).predecessor_set, p ∈ keysOf tl)
    (k : String) (hk : k ∈ keysOf tl) (hna : k ∉ assigned_tasks stations) :
    potential_tasks tl stations ≠ [] := by
  have hkU : k ∈ (keysOf tl).filter (fun x => decide (x ∉ assigned_tasks stations)) :=
    List.mem_filter.mpr ⟨hk, by simpa using hna⟩
  obtain ⟨u, huU, hmin⟩ := exists_min_rank rank _ (List.ne_nil_of_mem hkU)
  have huf := List.mem_filter.mp huU
  have huk : u ∈ keysOf tl := huf.1
  have huna : u ∉ assigned_tasks stations := by simpa using huf.2
  have hpot : u ∈ potential_tasks tl stations := by
    refine mem_potential.mpr ⟨huk, huna, ?_⟩
    intro p hp
    have hpair := findTask_mem huk
    have hpk : p ∈ keysOf tl := HP _ hpair p hp
    by_contra hpna
    have hpU : p ∈ (keysOf tl).filter (fun x => decide (x ∉ assigned_tasks stations)) :=
      List.mem_filter.mpr ⟨hpk, by simpa using hpna⟩
    have h1 := hmin p hpU
    have h2 := HR _ hpair p hp
    dsimp only at h2
    omega
  exact List.ne_nil_of_mem hpot

theorem countStations_zero (stations : StationList) (k : String)
    (h : k ∉ assigned_tasks stations) : countStations stations k = 0 := by
  induction stations with
  | nil => rfl
  | cons pr rest ih =>
    simp only [assigned_tasks, List.mem_append, not_or] at h
    simp only [countStations]
    rw [if_neg h.1, ih h.2]

theorem countStations_one (stations : StationList) (k : String)
    (hmem : k ∈ assigned_tasks stations) (hnd : (assigned_tasks stations).Nodup) :
    countStations stations k = 1 := by
  induction stations with
  | nil => cases hmem
  | cons pr rest ih =>
    simp only [assigned_tasks] at hmem hnd
    rcases List.nodup_append.mp hnd with ⟨hnd1, hnd2, hdisj⟩
    simp only [countStations]
    by_cases hk : k ∈ stationTasks pr.2
    · rw [if_pos hk, countStations_zero rest k (fun hin => hdisj hk hin)]
    · rcases List.mem_append.mp hmem with h | h
      · exact absurd h hk
      · rw [if_neg hk, ih h hnd2]

theorem station_index_mono (p t : String) :
    ∀ stations : StationList,
      (∀ xs ys, assigned_tasks stations = xs ++ t :: ys → p ∈ xs) →
      t ∈ assigned_tasks stations →
      station_index stations p ≤ station_index stations t := by
  intro stations
  induction stations with
  | nil =>
    intro _ ht
    cases ht
  | cons pr rest ih =>
    intro hsplit ht
    by_cases hp : p ∈ stationTasks pr.2
    · simp only [station_index]
      rw [if_pos hp]
      exact Nat.zero_le _
    · have htt : t ∉ stationTasks pr.2 := by
        intro htin
        obtain ⟨u, v, huv⟩ := List.append_of_mem htin
        have heq : assigned_tasks (pr :: rest) = u ++ t :: (v ++ assigned_tasks rest) := by
          simp only [assigned_tasks]
          rw [huv, List.append_assoc, List.cons_append]
        have hpu := hsplit u (v ++ assigned_tasks rest) heq
        apply hp
        rw [huv]
        exact List.mem_append_left _ hpu
      have htr : t ∈ assigned_tasks rest := by
        simp only [assigned_tasks, List.mem_append] at ht
        rcases ht with h | h
        · exact absurd h htt
        · exact h
      simp only [station_index]
      rw [if_neg hp, if_neg htt]
      refine Nat.succ_le_succ (ih ?_ htr)
      intro xs ys heq
      have heq2 : assigned_tasks (pr :: rest) = (stationTasks pr.2 ++ xs) ++ t :: ys := by
        simp only [assigned_tasks]
        rw [heq, List.append_assoc]
      have hpmem := hsplit (stationTasks pr.2 ++ xs) ys heq2
      rcases List.mem_append.mp hpmem with h | h
      · exact absurd h hp
      · exact h

theorem libQ_sqrt_pos : ∀ x : ℚ, 0 < x → 0 < libQ.sqrt x := by
  intro x hx
  have : ¬ x ≤ 0 := not_le.mpr hx
  simp only [libQ, sqrtQ]
  rw [if_neg this]
  exact hx

theorem two_mul_le_sq_add_one (n : ℕ) : 2 * n ≤ n * n + 1 := by
  cases n with
  | zero => simp
  | succ m =>
    cases m with
    | zero => simp
    | succ k =>
      have h : (k + 2) * (k + 2) = k * k + 4 * k + 4 := by ring
      rw [h]
      have h0 : 0 ≤ k * k := Nat.zero_le _
      linarith

/-! ### Claim theorems -/

/-- Claim C1 (amended): in the inner station-filling loop, whenever the
critical-task-with-empty-station case does not apply and at least one task of
the freshly classified pot_tasks list is "safe", the selection picks the safe
task with the highest out_compl_cost (the outCompletionCost value returned by
compute_status), not the highest expectedOutOfLineCost; ties are broken by
iteration order (first maximal entry). -/
theorem C1_amended (lib : NormalLib) (tl : TaskList) (T : ℚ)
    (stations : StationList) (cur : Station) (entries : List PotEntry)
    (hentries : compute_pot_entries lib tl T stations cur = .ok entries)
    (hno : ¬((entries.filter (fun x => decide (x.status = "critical"))).length > 0 ∧
      cur.out_line_cost.isEmpty = true))
    (hsafe : (entries.filter (fun x => decide (x.status = "safe"))).length > 0) :
    ∃ e, select_task entries cur.out_line_cost.isEmpty = some e ∧
      FirstMaxBy (fun x => x.out_compl_cost)
        (entries.filter (fun x => decide (x.status = "safe"))) e :=
  select_task_safe hno hsafe

/-- Claim C2 (amended): in the inner station-filling loop, whenever the
critical-task-with-empty-station case does not apply, no task is "safe" and
at least one task is "desirable", the selection picks the desirable task with
the lowest out_compl_cost (the outCompletionCost value returned by
compute_status), not the lowest expectedOutOfLineCost. -/
theorem C2_amended (lib : NormalLib) (tl : TaskList) (T : ℚ)
    (stations : StationList) (cur : Station) (entries : List PotEntry)
    (hentries : compute_pot_entries lib tl T stations cur = .ok entries)
    (hno : ¬((entries.filter (fun x => decide (x.status = "critical"))).length > 0 ∧
      cur.out_line_cost.isEmpty = true))
    (hnosafe : ¬(entries.filter (fun x => decide (x.status = "safe"))).length > 0)
    (hdes : (entries.filter (fun x => decide (x.status = "desirable"))).length > 0) :
    ∃ e, select_task entries cur.out_line_cost.isEmpty = some e ∧
      FirstMinBy (fun x => x.out_compl_cost)
        (entries.filter (fun x => decide (x.status = "desirable"))) e :=
  select_task_desirable hno hnosafe hdes

/-- Claim C3 (confirmed): for every valid instance (acyclic precedence graph
witnessed by a rank function, every referenced predecessor present,
duplicate-free task ids, fresh station list), once execute_algorithm returns,
every task id of the instance appears in the assignment map of exactly one
station, and the union of all stations' assigned ids equals the full task
set. -/
theorem C3_coverage (lib : NormalLib) (inst inst' : Instance) (cnt : Nat)
    (rank : String → Nat)
    (HR : ∀ pr ∈ inst.task_list, ∀ p ∈ (pr.2 : Task).predecessor_set,
      rank p < rank pr.1)
    (HP : ∀ pr ∈ inst.task_list, ∀ p ∈ (pr.2 : Task).predecessor_set,
      p ∈ keysOf inst.task_list)
    (HK : (keysOf inst.task_list).Nodup)
    (H0 : inst.station_list = [])
    (hrun : execute_algorithm lib inst = .ok (inst', cnt)) :
    (∀ k ∈ keysOf inst.task_list, countStations inst'.station_list k = 1) ∧
    (∀ x, x ∈ assigned_tasks inst'.station_list ↔ x ∈ keysOf inst.task_list) := by
  obtain ⟨stations, houter, -, -, -, hsl, -⟩ := execute_algorithm_ok hrun
  have hg0 : GoodAssigned inst.task_list (assigned_tasks inst.station_list) := by
    rw [H0]
    exact good_nil _
  obtain ⟨hgood, hpot, -⟩ :=
    outer_loop_spec lib inst.task_list inst.T _ inst.station_list 0 stations cnt
      houter hg0
  have hcov : ∀ k ∈ keysOf inst.task_list, k ∈ assigned_tasks stations := by
    intro k hk
    by_contra hna
    exact potential_nonempty inst.task_list stations rank HR HP k hk hna hpot
  rw [hsl]
  constructor
  · intro k hk
    exact countStations_one stations k (hcov k hk) hgood.nodup
  · intro x
    exact ⟨fun hx => hgood.sub x hx, fun hx => hcov x hx⟩

/-- Claim C4 (confirmed): stations are created with sequential string ids
"1", "2", ... (the id of the station at position i parses to i+1), and for
every assigned task t, every predecessor of t is assigned, to a station whose
index is at most the index of the station holding t (stations are filled in
one forward pass and never revisited). -/
theorem C4_precedence (lib : NormalLib) (inst inst' : Instance) (cnt : Nat)
    (H0 : inst.station_list = [])
    (hrun : execute_algorithm lib inst = .ok (inst', cnt)) :
    (inst'.station_list.map Prod.fst =
      (List.range inst'.station_list.length).map (fun i => toString (i + 1))) ∧
    ∀ t ∈ assigned_tasks inst'.station_list,
      ∀ p ∈ (findTask inst'.task_list t).predecessor_set,
        p ∈ assigned_tasks inst'.station_list ∧
        station_index inst'.station_list p ≤ station_index inst'.station_list t := by
  obtain ⟨stations, houter, htl, -, -, hsl, -⟩ := execute_algorithm_ok hrun
  have hg0 : GoodAssigned inst.task_list (assigned_tasks inst.station_list) := by
    rw [H0]
    exact good_nil _
  obtain ⟨hgood, -, created, hres, hids, -⟩ :=
    outer_loop_spec lib inst.task_list inst.T _ inst.station_list 0 stations cnt
      houter hg0
  rw [hsl, htl]
  constructor
  · rw [hres, H0, List.nil_append, hids]
    refine List.map_congr_left ?_
    intro i hi
    exact congrArg toString (by omega)
  · intro t ht p hp
    obtain ⟨xs, ys, hxy⟩ := List.append_of_mem ht
    have hpx : p ∈ xs := hgood.prec xs t ys hxy p hp
    refine ⟨?_, ?_⟩
    · rw [hxy]
      exact List.mem_append_left _ hpx
    · refine station_index_mono p t stations ?_ ht
      intro xs2 ys2 heq
      exact hgood.prec xs2 t ys2 heq p hp

/-- Claim C5 (confirmed): when the variance sum S over the station's tasks
plus the candidate is positive (so sqrt S is positive for a faithful sqrt)
and the candidate's outCompletionCost is positive, compute_status returns
z = (T - M)/sqrt S with M the corresponding sum of means, the expected
out-of-line cost (1 - cdf z) * outCompletionCost, and status "safe" iff
z > 2.575, "desirable" iff z <= 2.575 and z > zLimit, "critical" iff
z <= 2.575 and z <= zLimit. -/
theorem C5_classifier (lib : NormalLib) (tl : TaskList) (T : ℚ)
    (task_id : String) (station : Station)
    (Hsq : ∀ x : ℚ, 0 < x → 0 < lib.sqrt x)
    (hS : 0 < station_s_sum tl station task_id)
    (hocc : 0 < (findTask tl task_id).out_completion_cost) :
    ∃ e, compute_status lib tl T task_id station = .ok e ∧
      e.z = (T - station_m_sum tl station task_id) /
        lib.sqrt (station_s_sum tl station task_id) ∧
      e.out_compl_cost = (findTask tl task_id).out_completion_cost ∧
      e.expected_cost_out_line =
        (1 - lib.cdf e.z) * (findTask tl task_id).out_completion_cost ∧
      (e.status = "safe" ↔ 103 / 40 < e.z) ∧
      (e.status = "desirable" ↔
        (e.z ≤ 103 / 40 ∧ (findTask tl task_id).z_limit < e.z)) ∧
      (e.status = "critical" ↔
        (e.z ≤ 103 / 40 ∧ e.z ≤ (findTask tl task_id).z_limit)) := by
  simp only [compute_status]
  rw [if_neg (not_lt.mpr (le_of_lt hS)), if_neg (ne_of_gt (Hsq _ hS))]
  refine ⟨_, rfl, rfl, rfl, rfl, ?_, ?_, ?_⟩ <;> dsimp only <;> split_ifs with h1 h2
  · exact iff_of_true rfl h1
  · exact iff_of_false (by decide) h1
  · exact iff_of_false (by decide) h1
  · exact iff_of_false (by decide) (fun hc => absurd h1 (not_lt.mpr hc.1))
  · exact iff_of_true rfl ⟨not_lt.mp h1, h2⟩
  · exact iff_of_false (by decide) (fun hc => h2 hc.2)
  · exact iff_of_false (by decide) (fun hc => absurd h1 (not_lt.mpr hc.1))
  · exact iff_of_false (by decide) (fun hc => absurd h2 (not_lt.mpr hc.2))
  · exact iff_of_true rfl ⟨not_lt.mp h1, not_lt.mp h2⟩

/-- Claim C6 (confirmed): on a freshly constructed instance (total_unit_cost
initially 0, empty station list) a successful run sets total_unit_cost to the
sum, over all stations and over all tasks assigned to each station, of the
recorded expected out-of-line cost, plus T * c * (number of stations). -/
theorem C6_total_cost (lib : NormalLib) (inst inst' : Instance) (cnt : Nat)
    (H0 : inst.total_unit_cost = 0)
    (H1 : inst.station_list = [])
    (hrun : execute_algorithm lib inst = .ok (inst', cnt)) :
    inst'.total_unit_cost =
      (inst'.station_list.map
        (fun pr => ((pr.2 : Station).out_line_cost.map Prod.snd).sum)).sum +
      inst'.T * inst'.c * (inst'.station_list.length : ℚ) := by
  obtain ⟨stations, -, -, hT, hc, hsl, htot⟩ := execute_algorithm_ok hrun
  rw [htot, H0, hsl, hT, hc]
  ring

/-- Claim C8 (amended): on a valid instance (ranked acyclic graph,
predecessors present, duplicate-free ids, positive variances, a sqrt positive
on positives, fresh station list, n >= 1 tasks) execute_algorithm terminates
with a result, and the total number of inner-loop iterations is bounded by
n * n + 1 (the claim's n * n bound fails at n = 1, where two iterations
run). -/
theorem C8_amended (lib : NormalLib) (inst : Instance)
    (rank : String → Nat)
    (HR : ∀ pr ∈ inst.task_list, ∀ p ∈ (pr.2 : Task).predecessor_set,
      rank p < rank pr.1)
    (HP : ∀ pr ∈ inst.task_list, ∀ p ∈ (pr.2 : Task).predecessor_set,
      p ∈ keysOf inst.task_list)
    (HK : (keysOf inst.task_list).Nodup)
    (Hn : 1 ≤ inst.task_list.length)
    (H0 : inst.station_list = [])
    (Hsq : ∀ x : ℚ, 0 < x → 0 < lib.sqrt x)
    (HS : ∀ pr ∈ inst.task_list, 0 < (pr.2 : Task).s) :
    ∃ inst' cnt, execute_algorithm lib inst = .ok (inst', cnt) ∧
      cnt ≤ inst.task_list.length * inst.task_list.length + 1 := by
  have hclosed : ∀ x ∈ assigned_tasks inst.station_list, x ∈ keysOf inst.task_list := by
    rw [H0]
    intro x hx
    cases hx
  have hua : uaCount inst.task_list inst.station_list < inst.task_list.length + 1 :=
    Nat.lt_succ_of_le (uaFrom_le _ _)
  obtain ⟨res, cnt, houter, hcnt⟩ :=
    outer_loop_main lib inst.task_list inst.T Hsq HS (inst.task_list.length + 1)
      inst.station_list 0 hclosed hua
  have hexec : ∃ inst', execute_algorithm lib inst = .ok (inst', cnt) := by
    simp only [execute_algorithm]
    rw [houter]
    exact ⟨_, rfl⟩
  obtain ⟨inst', hexec⟩ := hexec
  refine ⟨inst', cnt, hexec, ?_⟩
  have h2 : uaCount inst.task_list inst.station_list ≤ inst.task_list.length :=
    uaFrom_le _ _
  have h3 := two_mul_le_sq_add_one inst.task_list.length
  omega

/-- Claim C9 (confirmed): constructing an Instance whose task set contains a
task with outCompletionCost 0 (computed by the DFS cost sum) fails with an
explicit division-by-zero error raised while populating derived fields inside
the constructor (compute_z_limit divides in_line_cost by
out_completion_cost), before any balancing step can run. -/
theorem C9_zero_cost_constructor_fails (lib : NormalLib) (instance_id : String)
    (tl : TaskList) (q c : ℚ) (hq : q ≠ 0) (k : String) (hk : k ∈ keysOf tl)
    (hocc : task_out_line_completion_cost tl k = 0) :
    Instance.build lib instance_id tl q c = .error zeroDivMsg := by
  unfold Instance.build
  rw [if_neg hq]
  have hfill : fill_task_properties lib tl c = .error zeroDivMsg := by
    unfold fill_task_properties
    refine mapExcept_error_msg _ _ ?_ _ ?_
    · intro x e he
      simp only [fill_one] at he
      split at he
      · cases he
        rfl
      · cases he
    · rcases List.mem_map.mp hk with ⟨pr, hpr, hfst⟩
      refine ⟨pr, hpr, zeroDivMsg, ?_⟩
      simp only [fill_one]
      rw [hfst, hocc]
      rw [if_pos rfl]
  rw [hfill]

/-- Claim C10 (confirmed): whenever execute_algorithm terminates normally on
a fresh instance, every station in the final station list has a non-empty
assignment map: a newly opened station always receives at least one task
before the inner loop can break. -/
theorem C10_stations_nonempty (lib : NormalLib) (inst inst' : Instance)
    (cnt : Nat) (H0 : inst.station_list = [])
    (hrun : execute_algorithm lib inst = .ok (inst', cnt)) :
    ∀ pr ∈ inst'.station_list, (pr.2 : Station).out_line_cost ≠ [] := by
  obtain ⟨stations, houter, -, -, -, hsl, -⟩ := execute_algorithm_ok hrun
  have hg0 : GoodAssigned inst.task_list (assigned_tasks inst.station_list) := by
    rw [H0]
    exact good_nil _
  obtain ⟨-, -, created, hres, -, hne⟩ :=
    outer_loop_spec lib inst.task_list inst.T _ inst.station_list 0 stations cnt
      houter hg0
  rw [hsl, hres, H0, List.nil_append]
  exact hne

/-! ### Witnesses and counterexamples, evaluated on concrete instances.
Batteries marks the Rat field operations irreducible; making them
semireducible locally lets decide evaluate the concrete runs. -/

section ConcreteEvaluation

attribute [local semireducible] Rat.add Rat.mul Rat.inv Rat.sub Rat.ofScientific

/-- Witness instantiating C1_amended at instC1's first inner-loop state. -/
theorem C1_witness :
    ∃ e, select_task entriesC1 (Station.mk "1" []).out_line_cost.isEmpty = some e ∧
      FirstMaxBy (fun x => x.out_compl_cost)
        (entriesC1.filter (fun x => decide (x.status = "safe"))) e :=
  C1_amended libQ instC1.task_list instC1.T [("1", ⟨"1", []⟩)] ⟨"1", []⟩ entriesC1
    (by decide) (by decide) (by decide)

/-- Counterexample to claim C1 as stated: on instC1's first inner-loop
iteration both available tasks are safe and the algorithm selects "A"
(out_compl_cost 10 against 9), although "A"'s expectedOutOfLineCost 1/20 is
smaller than "B"'s 9/22 — the selected safe task does not have the highest
expectedOutOfLineCost.  The real normal CDF orders the same instance the
same way: 1 - cdf 99 is astronomically smaller than 1 - cdf 10. -/
theorem C1_counterexample :
    (Instance.build libQ "c1" tasksC1 (1 / 100) 0).toOption.isSome = true ∧
    compute_pot_entries libQ instC1.task_list instC1.T
      [("1", ⟨"1", []⟩)] ⟨"1", []⟩ = .ok entriesC1 ∧
    (select_task entriesC1 true).map PotEntry.task_id = some "A" ∧
    entriesC1.map (fun e => (e.task_id, e.status)) =
      [("A", "safe"), ("B", "safe")] ∧
    entriesC1.map (fun e => (e.task_id, e.expected_cost_out_line)) =
      [("A", 1 / 20), ("B", 9 / 22)] ∧
    ((1 : ℚ) / 20 < 9 / 22) := by decide

/-- Witness instantiating C2_amended at instC2's first inner-loop state. -/
theorem C2_witness :
    ∃ e, select_task entriesC2 (Station.mk "1" []).out_line_cost.isEmpty = some e ∧
      FirstMinBy (fun x => x.out_compl_cost)
        (entriesC2.filter (fun x => decide (x.status = "desirable"))) e :=
  C2_amended libQ instC2.task_list instC2.T [("1", ⟨"1", []⟩)] ⟨"1", []⟩ entriesC2
    (by decide) (by decide) (by decide) (by decide)

/-- Counterexample to claim C2 as stated: on instC2's first inner-loop
iteration (T = 10, c = 1) both available tasks are desirable — their
z-values 1/2 and 5/2 exceed their z_limits -9 and 1/3, and the real
norm.ppf values at the same arguments 1/20 and 5/8 (about -1.64 and 0.32)
sit on the same side of z, so the real source classifies them desirable
too — and the algorithm selects "A" (out_compl_cost 10 against 20),
although "A"'s expectedOutOfLineCost 10/3 is larger than "B"'s 20/7 (under
the real normal CDF: about 3.1 against 0.12): the selected desirable task
does not have the lowest expectedOutOfLineCost. -/
theorem C2_counterexample :
    (Instance.build libQ "c2" tasksC2 (1 / 10) 1).toOption.isSome = true ∧
    compute_pot_entries libQ instC2.task_list instC2.T
      [("1", ⟨"1", []⟩)] ⟨"1", []⟩ = .ok entriesC2 ∧
    (select_task entriesC2 true).map PotEntry.task_id = some "A" ∧
    entriesC2.map (fun e => (e.task_id, e.status)) =
      [("A", "desirable"), ("B", "desirable")] ∧
    entriesC2.map (fun e => (e.task_id, e.expected_cost_out_line)) =
      [("A", 10 / 3), ("B", 20 / 7)] ∧
    ((20 : ℚ) / 7 < 10 / 3) := by decide

/-- Witness instantiating C3_coverage on the valid two-task chain instW. -/
theorem C3_witness :
    (∀ k ∈ keysOf instW.task_list, countStations runW.1.station_list k = 1) ∧
    (∀ x, x ∈ assigned_tasks runW.1.station_list ↔ x ∈ keysOf instW.task_list) :=
  C3_coverage libQ instW runW.1 runW.2 rankW (by decide) (by decide) (by decide)
    (by decide) (by decide)

/-- Witness instantiating C4_precedence on instW. -/
theorem C4_witness :
    (runW.1.station_list.map Prod.fst =
      (List.range runW.1.station_list.length).map (fun i => toString (i + 1))) ∧
    ∀ t ∈ assigned_tasks runW.1.station_list,
      ∀ p ∈ (findTask runW.1.task_list t).predecessor_set,
        p ∈ assigned_tasks runW.1.station_list ∧
        station_index runW.1.station_list p ≤ station_index runW.1.station_list t :=
  C4_precedence libQ instW runW.1 runW.2 (by decide) (by decide)

/-- Witness instantiating C5_classifier on instW's task "A" against the empty
first station. -/
theorem C5_witness :
    ∃ e, compute_status libQ instW.task_list instW.T "A" ⟨"1", []⟩ = .ok e ∧
      e.z = (instW.T - station_m_sum instW.task_list ⟨"1", []⟩ "A") /
        libQ.sqrt (station_s_sum instW.task_list ⟨"1", []⟩ "A") ∧
      e.out_compl_cost = (findTask instW.task_list "A").out_completion_cost ∧
      e.expected_cost_out_line =
        (1 - libQ.cdf e.z) * (findTask instW.task_list "A").out_completion_cost ∧
      (e.status = "safe" ↔ 103 / 40 < e.z) ∧
      (e.status = "desirable" ↔
        (e.z ≤ 103 / 40 ∧ (findTask instW.task_list "A").z_limit < e.z)) ∧
      (e.status = "critical" ↔
        (e.z ≤ 103 / 40 ∧ e.z ≤ (findTask instW.task_list "A").z_limit)) :=
  C5_classifier libQ instW.task_list instW.T "A" ⟨"1", []⟩ libQ_sqrt_pos
    (by decide) (by decide)

/-- Witness instantiating C6_total_cost on instW. -/
theorem C6_witness :
    runW.1.total_unit_cost =
      (runW.1.station_list.map
        (fun pr => ((pr.2 : Station).out_line_cost.map Prod.snd).sum)).sum +
      runW.1.T * runW.1.c * (runW.1.station_list.length : ℚ) :=
  C6_total_cost libQ instW runW.1 runW.2 (by decide) (by decide) (by decide)

/-- Claim C7 (amended): on the spec section 8 scenario (three tasks A -> B ->
C, m = 1, s = 0, out_line_cost = 5, q = 1, c = 1) the constructor succeeds,
but the very first classification (task A against the empty station "1") has
variance sum 0 and raises ZeroDivisionError, which execute_algorithm
propagates; the run errors instead of producing the three stations the claim
expects. -/
theorem C7_amended :
    (Instance.build libQ "c7" tasksC7 1 1).toOption.isSome = true ∧
    compute_status libQ instC7.task_list instC7.T "A" ⟨"1", []⟩ =
      .error zeroDivMsg ∧
    execute_algorithm libQ instC7 = .error zeroDivMsg := by decide

/-- Counterexample to claim C7 as stated: execute_algorithm does not complete
on the scenario instance (no result is produced at all, so in particular no
three-station assignment). -/
theorem C7_counterexample :
    (execute_algorithm libQ instC7).toOption.isSome = false := by decide

/-- Witness instantiating C8_amended on instW. -/
theorem C8_witness :
    ∃ inst' cnt, execute_algorithm libQ instW = .ok (inst', cnt) ∧
      cnt ≤ instW.task_list.length * instW.task_list.length + 1 :=
  C8_amended libQ instW rankW (by decide) (by decide) (by decide) (by decide)
    (by decide) libQ_sqrt_pos (by decide)

/-- Counterexample to claim C8 as stated: the valid single-task instance
instW1 (n = 1) needs two inner-loop iterations (one assignment plus the final
emptiness check), exceeding the claimed bound n * n = 1. -/
theorem C8_counterexample :
    instW1.task_list.length = 1 ∧
    (execute_algorithm libQ instW1).toOption.map Prod.snd = some 2 ∧
    ¬(2 ≤ 1 * 1) := by decide

/-- Witness instantiating C9_zero_cost_constructor_fails on the single
zero-cost task instance tasksZ. -/
theorem C9_witness :
    (1 : ℚ) ≠ 0 ∧ "X" ∈ keysOf tasksZ ∧
    task_out_line_completion_cost tasksZ "X" = 0 ∧
    Instance.build libQ "z" tasksZ 1 1 = .error zeroDivMsg :=
  ⟨by decide, by decide, by decide,
    C9_zero_cost_constructor_fails libQ "z" tasksZ 1 1 (by decide) "X"
      (by decide) (by decide)⟩

/-- Witness instantiating C10_stations_nonempty on instW, whose run creates
two stations. -/
theorem C10_witness :
    runW.1.station_list.length = 2 ∧
    ∀ pr ∈ runW.1.station_list, (pr.2 : Station).out_line_cost ≠ [] :=
  ⟨by decide, C10_stations_nonempty libQ instW runW.1 runW.2 (by decide) (by decide)⟩

end ConcreteEvaluation

end KL
